import Mathlib

/-!
# Octahedral direction codec: formal model

A shallow embedding, over exact real arithmetic, of the octahedral
encode/decode functions found in `oct_test.py` and `simulate_octa.py`.
Machine floats are modelled by `ℝ`; `math.sqrt` by `Real.sqrt`; Python's
`ZeroDivisionError` on float division by an exact zero is modelled by an
`Option`-valued checked variant of `encode`.
-/

namespace OctTest

/-- The per-axis sign factor `1.0 if c >= 0 else -1.0` that appears inline
in the fold branch of `encode` and the unfold branch of `decode`. -/
noncomputable def signDir (c : ℝ) : ℝ := if 0 ≤ c then 1 else -1

/-- The body of `encode` from `oct_test.py` up to (but excluding) the final
`* 0.5 + 0.5` range remap: normalization, axis swap `(x,z,y)`, L1
projection, and the lower-hemisphere fold. Returns the pre-scaling
`(uvx, uvy)` pair. -/
noncomputable def encodePre (dirx diry dirz : ℝ) : ℝ × ℝ :=
  let length := Real.sqrt (dirx * dirx + diry * diry + dirz * dirz)
  let octX := dirx / length
  let octY := dirz / length
  let octZ := diry / length
  let denom := max (|octX| + |octY| + |octZ|) 1e-5
  let pX := octX / denom
  let pY := octY / denom
  let pZ := octZ / denom
  let uvx := if pZ < 0 then (1.0 - |pY|) * signDir pX else pX
  let uvy := if pZ < 0 then (1.0 - |pX|) * signDir pY else pY
  (uvx, uvy)

/-- `encode(dirx, diry, dirz)` from `oct_test.py`: the pre-scaling pair
remapped from `[-1,1]²` to `[0,1]²` by `* 0.5 + 0.5`. -/
noncomputable def encode (dirx diry dirz : ℝ) : ℝ × ℝ :=
  ((encodePre dirx diry dirz).1 * 0.5 + 0.5,
   (encodePre dirx diry dirz).2 * 0.5 + 0.5)

/-- Checked variant of `encode`: Python raises `ZeroDivisionError` when a
float is divided by exactly zero, so the function yields no value when a
divisor (`length`, or the clamped `denom`) is zero.  Otherwise it agrees
with `encode`. -/
noncomputable def encodeChecked (dirx diry dirz : ℝ) : Option (ℝ × ℝ) :=
  let length := Real.sqrt (dirx * dirx + diry * diry + dirz * dirz)
  if length = 0 then none
  else if max (|dirx / length| + |dirz / length| + |diry / length|) 1e-5 = 0
    then none
  else some (encode dirx diry dirz)

/-- The intermediate L1 norm `abs(octX) + abs(octY) + abs(octZ)` computed by
`encode` after normalization and the `(x,z,y)` axis swap, before the
defensive `max(·, 1e-5)` clamp. -/
noncomputable def encodeL1 (dirx diry dirz : ℝ) : ℝ :=
  let length := Real.sqrt (dirx * dirx + diry * diry + dirz * dirz)
  |dirx / length| + |dirz / length| + |diry / length|

/-- The body of `decode` from `oct_test.py` up to (but excluding) the final
normalization: remap to `[-1,1]²`, reconstruct `n_z`, undo the fold when
`n_z < 0`, and undo the axis swap. Returns `(dirx, diry, dirz) =
(n_x, n_z, n_y)`, the triple that `decode` then normalizes. -/
noncomputable def decodePre (u v : ℝ) : ℝ × ℝ × ℝ :=
  let f_x := u * 2.0 - 1.0
  let f_y := v * 2.0 - 1.0
  let n_z := 1.0 - |f_x| - |f_y|
  let n_x := if n_z < 0 then (1.0 - |f_y|) * signDir f_x else f_x
  let n_y := if n_z < 0 then (1.0 - |f_x|) * signDir f_y else f_y
  (n_x, n_z, n_y)

/-- `decode(u, v)` from `oct_test.py`: the pre-normalization triple divided
by its Euclidean length. -/
noncomputable def decode (u v : ℝ) : ℝ × ℝ × ℝ :=
  let d := decodePre u v
  let length := Real.sqrt (d.1 * d.1 + d.2.1 * d.2.1 + d.2.2 * d.2.2)
  (d.1 / length, d.2.1 / length, d.2.2 / length)

end OctTest

namespace SimulateOcta

/-- `decode(u, v)` as duplicated verbatim in `simulate_octa.py`: `tmp_x` and
`tmp_y` are both computed from the pre-assignment `n_x`, `n_y`. -/
noncomputable def decode (u v : ℝ) : ℝ × ℝ × ℝ :=
  let f_x := u * 2.0 - 1.0
  let f_y := v * 2.0 - 1.0
  let n_x := f_x
  let n_y := f_y
  let n_z := 1.0 - |f_x| - |f_y|
  let tmp_x := (1.0 - |n_y|) * OctTest.signDir n_x
  let tmp_y := (1.0 - |n_x|) * OctTest.signDir n_y
  let dirx := if n_z < 0 then tmp_x else n_x
  let diry := n_z
  let dirz := if n_z < 0 then tmp_y else n_y
  let length := Real.sqrt (dirx * dirx + diry * diry + dirz * dirz)
  (dirx / length, diry / length, dirz / length)

end SimulateOcta

namespace OctTest

lemma signDir_of_nonneg {c : ℝ} (h : 0 ≤ c) : signDir c = 1 := by
  simp [signDir, h]

lemma signDir_of_neg {c : ℝ} (h : c < 0) : signDir c = -1 := by
  simp [signDir, not_le.mpr h]

lemma abs_signDir (c : ℝ) : |signDir c| = 1 := by
  rcases le_or_lt 0 c with h | h
  · rw [signDir_of_nonneg h]; norm_num
  · rw [signDir_of_neg h]; norm_num

lemma abs_mul_signDir (c : ℝ) : |c| * signDir c = c := by
  rcases le_or_lt 0 c with h | h
  · rw [signDir_of_nonneg h, abs_of_nonneg h, mul_one]
  · rw [signDir_of_neg h, abs_of_neg h]; ring

lemma signDir_mul_pos {t : ℝ} (ht : 0 < t) (c : ℝ) :
    signDir (t * signDir c) = signDir c := by
  rcases le_or_lt 0 c with h | h
  · rw [signDir_of_nonneg h, mul_one, signDir_of_nonneg ht.le]
  · rw [signDir_of_neg h]
    have : t * (-1 : ℝ) < 0 := by nlinarith
    rw [signDir_of_neg this]

/-- A unit vector has L1 norm at least 1. -/
lemma one_le_abs_add_of_unit {a b c : ℝ} (h : a * a + b * b + c * c = 1) :
    1 ≤ |a| + |b| + |c| := by
  nlinarith [abs_nonneg a, abs_nonneg b, abs_nonneg c, sq_abs a, sq_abs b,
    sq_abs c, mul_nonneg (abs_nonneg a) (abs_nonneg b),
    mul_nonneg (abs_nonneg b) (abs_nonneg c),
    mul_nonneg (abs_nonneg a) (abs_nonneg c)]

lemma norm_sq_pos {x y z : ℝ} (h : ¬(x = 0 ∧ y = 0 ∧ z = 0)) :
    0 < x * x + y * y + z * z := by
  rcases lt_or_eq_of_le
    (by nlinarith [mul_self_nonneg x, mul_self_nonneg y, mul_self_nonneg z] :
      (0:ℝ) ≤ x * x + y * y + z * z) with hlt | heq
  · exact hlt
  · exfalso
    refine h ⟨?_, ?_, ?_⟩
    · exact mul_self_eq_zero.mp (by nlinarith [mul_self_nonneg y, mul_self_nonneg z])
    · exact mul_self_eq_zero.mp (by nlinarith [mul_self_nonneg x, mul_self_nonneg z])
    · exact mul_self_eq_zero.mp (by nlinarith [mul_self_nonneg x, mul_self_nonneg y])

lemma sqrt_norm_pos {x y z : ℝ} (h : ¬(x = 0 ∧ y = 0 ∧ z = 0)) :
    0 < Real.sqrt (x * x + y * y + z * z) :=
  Real.sqrt_pos.mpr (norm_sq_pos h)

/-- Dividing a non-zero vector by its Euclidean length yields a unit vector. -/
lemma normalized_unit {x y z : ℝ} (h : ¬(x = 0 ∧ y = 0 ∧ z = 0)) :
    x / Real.sqrt (x * x + y * y + z * z) * (x / Real.sqrt (x * x + y * y + z * z)) +
    y / Real.sqrt (x * x + y * y + z * z) * (y / Real.sqrt (x * x + y * y + z * z)) +
    z / Real.sqrt (x * x + y * y + z * z) * (z / Real.sqrt (x * x + y * y + z * z)) = 1 := by
  have hS : 0 < x * x + y * y + z * z := norm_sq_pos h
  have hL : 0 < Real.sqrt (x * x + y * y + z * z) := Real.sqrt_pos.mpr hS
  have hLsq : Real.sqrt (x * x + y * y + z * z) * Real.sqrt (x * x + y * y + z * z) =
      x * x + y * y + z * z := Real.mul_self_sqrt hS.le
  field_simp

/-- `decodePre` unfolded, with numeric literals normalized. -/
lemma decodePre_raw (u v : ℝ) :
    decodePre u v =
      (if 1 - |u * 2 - 1| - |v * 2 - 1| < 0
         then (1 - |v * 2 - 1|) * signDir (u * 2 - 1) else u * 2 - 1,
       1 - |u * 2 - 1| - |v * 2 - 1|,
       if 1 - |u * 2 - 1| - |v * 2 - 1| < 0
         then (1 - |u * 2 - 1|) * signDir (v * 2 - 1) else v * 2 - 1) := by
  simp only [decodePre]
  norm_num

/-- `decode` unfolded into `decodePre` followed by normalization. -/
lemma decode_def (u v : ℝ) :
    decode u v =
      ((decodePre u v).1 /
         Real.sqrt ((decodePre u v).1 * (decodePre u v).1 +
           (decodePre u v).2.1 * (decodePre u v).2.1 +
           (decodePre u v).2.2 * (decodePre u v).2.2),
       (decodePre u v).2.1 /
         Real.sqrt ((decodePre u v).1 * (decodePre u v).1 +
           (decodePre u v).2.1 * (decodePre u v).2.1 +
           (decodePre u v).2.2 * (decodePre u v).2.2),
       (decodePre u v).2.2 /
         Real.sqrt ((decodePre u v).1 * (decodePre u v).1 +
           (decodePre u v).2.1 * (decodePre u v).2.1 +
           (decodePre u v).2.2 * (decodePre u v).2.2)) := rfl

/-- `decodePre` at a point written in pre-scaling form `w * 0.5 + 0.5`. -/
lemma decodePre_scale (p q : ℝ) :
    decodePre (p * 0.5 + 0.5) (q * 0.5 + 0.5) =
      (if 1 - |p| - |q| < 0 then (1 - |q|) * signDir p else p,
       1 - |p| - |q|,
       if 1 - |p| - |q| < 0 then (1 - |p|) * signDir q else q) := by
  have h1 : (p * 0.5 + 0.5) * 2 - 1 = p := by ring
  have h2 : (q * 0.5 + 0.5) * 2 - 1 = q := by ring
  rw [decodePre_raw, h1, h2]

/-- On the central diamond, `decodePre` is the identity unfolding. -/
lemma decodePre_nofold (p q r : ℝ) (hsum : |p| + |q| + |r| = 1) (hr : 0 ≤ r) :
    decodePre (p * 0.5 + 0.5) (q * 0.5 + 0.5) = (p, r, q) := by
  have hnz : 1 - |p| - |q| = r := by
    have := abs_of_nonneg hr
    linarith
  rw [decodePre_scale, hnz, if_neg (not_lt.mpr hr), if_neg (not_lt.mpr hr)]

/-- `decodePre` exactly undoes the encoder's lower-hemisphere fold. -/
lemma decodePre_fold (p q r : ℝ) (hsum : |p| + |q| + |r| = 1) (hr : r < 0) :
    decodePre ((1 - |q|) * signDir p * 0.5 + 0.5)
        ((1 - |p|) * signDir q * 0.5 + 0.5) = (p, r, q) := by
  have habsr : |r| = -r := abs_of_neg hr
  have hrpos : 0 < |r| := abs_pos.mpr hr.ne
  have hq1 : 0 < 1 - |q| := by linarith [abs_nonneg p]
  have hp1 : 0 < 1 - |p| := by linarith [abs_nonneg q]
  have habsP : |(1 - |q|) * signDir p| = 1 - |q| := by
    rw [abs_mul, abs_signDir, mul_one, abs_of_pos hq1]
  have habsQ : |(1 - |p|) * signDir q| = 1 - |p| := by
    rw [abs_mul, abs_signDir, mul_one, abs_of_pos hp1]
  rw [decodePre_scale, habsP, habsQ]
  have hcond : 1 - (1 - |q|) - (1 - |p|) = r := by linarith
  rw [hcond, if_pos hr, if_pos hr, signDir_mul_pos hq1 p, signDir_mul_pos hp1 q]
  have e1 : 1 - (1 - |p|) = |p| := by ring
  have e2 : 1 - (1 - |q|) = |q| := by ring
  rw [e1, e2, abs_mul_signDir, abs_mul_signDir]

lemma decodePre_ne_zero (u v : ℝ) : decodePre u v ≠ (0, 0, 0) := by
  rw [decodePre_raw]
  intro h0
  rw [Prod.mk.injEq, Prod.mk.injEq] at h0
  obtain ⟨h1, h2, h3⟩ := h0
  have hnz : ¬(1 - |u * 2 - 1| - |v * 2 - 1| < 0) := by
    rw [h2]
    exact lt_irrefl 0
  rw [if_neg hnz] at h1 h3
  rw [h1, h3] at h2
  simp at h2

lemma triple_sum_sq_pos {t : ℝ × ℝ × ℝ} (h : t ≠ (0, 0, 0)) :
    0 < t.1 * t.1 + t.2.1 * t.2.1 + t.2.2 * t.2.2 := by
  obtain ⟨a, b, c⟩ := t
  show 0 < a * a + b * b + c * c
  apply norm_sq_pos
  intro ⟨h1, h2, h3⟩
  exact h (by rw [h1, h2, h3])

/-- If `decodePre` yields a unit vector scaled down by `s`, then `decode`
recovers the unit vector exactly. -/
lemma decode_of_decodePre (U V a b c s : ℝ) (hs : 0 < s)
    (hunit : a * a + b * b + c * c = 1)
    (hpre : decodePre U V = (a / s, b / s, c / s)) :
    decode U V = (a, b, c) := by
  have hq : a / s * (a / s) + b / s * (b / s) + c / s * (c / s) = (1 / s) ^ 2 := by
    have e : a / s * (a / s) + b / s * (b / s) + c / s * (c / s)
        = (a * a + b * b + c * c) / (s * s) := by ring
    rw [e, hunit]
    ring
  rw [decode_def, hpre]
  dsimp only
  rw [hq, Real.sqrt_sq (by positivity : (0:ℝ) ≤ 1 / s)]
  have hd : ∀ t : ℝ, t / s / (1 / s) = t := by
    intro t
    field_simp
  rw [hd, hd, hd]

/-- Structure of `encodePre` on a non-zero input: it is the L1-projected
normalized direction `(p, q, r)` (in octahedral axis order), folded when
the polar coordinate `r` is negative. -/
lemma encode_decompose (x y z : ℝ) (h : ¬(x = 0 ∧ y = 0 ∧ z = 0)) :
    ∃ p q r s : ℝ, 0 < s ∧
      p = x / Real.sqrt (x * x + y * y + z * z) / s ∧
      r = y / Real.sqrt (x * x + y * y + z * z) / s ∧
      q = z / Real.sqrt (x * x + y * y + z * z) / s ∧
      |p| + |q| + |r| = 1 ∧
      (r < 0 ↔ y < 0) ∧
      encodePre x y z =
        (if r < 0 then (1 - |q|) * signDir p else p,
         if r < 0 then (1 - |p|) * signDir q else q) := by
  have hL : 0 < Real.sqrt (x * x + y * y + z * z) := sqrt_norm_pos h
  have hunit := normalized_unit h
  set L := Real.sqrt (x * x + y * y + z * z) with hLdef
  set s := |x / L| + |z / L| + |y / L| with hsdef
  have hs1 : 1 ≤ s := by
    have h' := one_le_abs_add_of_unit hunit
    rw [hsdef]
    linarith
  have hspos : 0 < s := lt_of_lt_of_le one_pos hs1
  refine ⟨x / L / s, z / L / s, y / L / s, s, hspos, rfl, rfl, rfl, ?_, ?_, ?_⟩
  · have e : ∀ t : ℝ, |t / s| = |t| / s := fun t => by
      rw [abs_div, abs_of_pos hspos]
    rw [e, e, e, div_add_div_same, div_add_div_same, ← hsdef]
    exact div_self hspos.ne'
  · rw [div_div]
    constructor
    · intro h'
      by_contra hy
      push_neg at hy
      exact absurd (div_nonneg hy (mul_pos hL hspos).le) (not_le.mpr h')
    · intro hy
      exact div_neg_of_neg_of_pos hy (mul_pos hL hspos)
  · simp only [encodePre]
    rw [← hLdef, ← hsdef,
      max_eq_left (le_trans (by norm_num : (1e-5:ℝ) ≤ 1) hs1)]
    norm_num

/-- C1: for every non-zero input direction `(x,y,z)`,
`decode (encode x y z)` is exactly the normalized direction
`(x,y,z) / sqrt(x²+y²+z²)` — the round trip is exact in real arithmetic,
on both the non-fold and fold branches and in all octants. -/
theorem oct_round_trip (x y z : ℝ) (h : ¬(x = 0 ∧ y = 0 ∧ z = 0)) :
    decode (encode x y z).1 (encode x y z).2 =
      (x / Real.sqrt (x * x + y * y + z * z),
       y / Real.sqrt (x * x + y * y + z * z),
       z / Real.sqrt (x * x + y * y + z * z)) := by
  obtain ⟨p, q, r, s, hs, hp, hr, hq, hsum, hiff, hpre⟩ := encode_decompose x y z h
  have hunit := normalized_unit h
  have h1 : (encode x y z).1 = (encodePre x y z).1 * 0.5 + 0.5 := rfl
  have h2 : (encode x y z).2 = (encodePre x y z).2 * 0.5 + 0.5 := rfl
  rw [h1, h2, hpre]
  dsimp only
  rcases lt_or_le r 0 with hneg | hnn
  · rw [if_pos hneg, if_pos hneg]
    exact decode_of_decodePre _ _ _ _ _ s hs hunit
      (by rw [decodePre_fold p q r hsum hneg, hp, hr, hq])
  · rw [if_neg (not_lt.mpr hnn), if_neg (not_lt.mpr hnn)]
    exact decode_of_decodePre _ _ _ _ _ s hs hunit
      (by rw [decodePre_nofold p q r hsum hnn, hp, hr, hq])

/-- Witness for C1 at the concrete non-zero direction `(1,2,2)`, whose
normalization is `(1/3, 2/3, 2/3)`. -/
theorem oct_round_trip_witness :
    ¬((1:ℝ) = 0 ∧ (2:ℝ) = 0 ∧ (2:ℝ) = 0) ∧
    decode (encode 1 2 2).1 (encode 1 2 2).2 = (1/3, 2/3, 2/3) := by
  have hne : ¬((1:ℝ) = 0 ∧ (2:ℝ) = 0 ∧ (2:ℝ) = 0) := by norm_num
  refine ⟨hne, ?_⟩
  have h9 : Real.sqrt ((1:ℝ) * 1 + 2 * 2 + 2 * 2) = 3 := by
    rw [show ((1:ℝ) * 1 + 2 * 2 + 2 * 2) = 3 ^ 2 by norm_num]
    exact Real.sqrt_sq (by norm_num)
  have hrt := oct_round_trip 1 2 2 hne
  rw [h9] at hrt
  exact hrt

/-- C2: for every non-zero input direction, both components of
`encode x y z` lie in `[0, 1]`, on the fold branch as well as the
non-fold branch. -/
theorem oct_encode_range (x y z : ℝ) (h : ¬(x = 0 ∧ y = 0 ∧ z = 0)) :
    0 ≤ (encode x y z).1 ∧ (encode x y z).1 ≤ 1 ∧
    0 ≤ (encode x y z).2 ∧ (encode x y z).2 ≤ 1 := by
  obtain ⟨p, q, r, s, hs, hp, hr, hq, hsum, hiff, hpre⟩ := encode_decompose x y z h
  have h1 : (encode x y z).1 = (encodePre x y z).1 * 0.5 + 0.5 := rfl
  have h2 : (encode x y z).2 = (encodePre x y z).2 * 0.5 + 0.5 := rfl
  have hap : |p| ≤ 1 := by linarith [abs_nonneg q, abs_nonneg r]
  have haq : |q| ≤ 1 := by linarith [abs_nonneg p, abs_nonneg r]
  have habs : |(encodePre x y z).1| ≤ 1 ∧ |(encodePre x y z).2| ≤ 1 := by
    rw [hpre]
    dsimp only
    rcases lt_or_le r 0 with hneg | hnn
    · rw [if_pos hneg, if_pos hneg]
      constructor
      · rw [abs_mul, abs_signDir, mul_one,
          abs_of_nonneg (by linarith [abs_nonneg q] : (0:ℝ) ≤ 1 - |q|)]
        linarith [abs_nonneg q]
      · rw [abs_mul, abs_signDir, mul_one,
          abs_of_nonneg (by linarith [abs_nonneg p] : (0:ℝ) ≤ 1 - |p|)]
        linarith [abs_nonneg p]
    · rw [if_neg (not_lt.mpr hnn), if_neg (not_lt.mpr hnn)]
      exact ⟨hap, haq⟩
  obtain ⟨l1, u1⟩ := abs_le.mp habs.1
  obtain ⟨l2, u2⟩ := abs_le.mp habs.2
  rw [h1, h2]
  refine ⟨by nlinarith, by nlinarith, by nlinarith, by nlinarith⟩

/-- Witness for C2 at the concrete direction `(1, -1, 1)` (fold branch). -/
theorem oct_encode_range_witness :
    ¬((1:ℝ) = 0 ∧ (-1:ℝ) = 0 ∧ (1:ℝ) = 0) ∧
    (0 ≤ (encode 1 (-1) 1).1 ∧ (encode 1 (-1) 1).1 ≤ 1 ∧
     0 ≤ (encode 1 (-1) 1).2 ∧ (encode 1 (-1) 1).2 ≤ 1) := by
  have hne : ¬((1:ℝ) = 0 ∧ (-1:ℝ) = 0 ∧ (1:ℝ) = 0) := by norm_num
  exact ⟨hne, oct_encode_range 1 (-1) 1 hne⟩

/-- C3: for every direction with negative polar component `y`, the encoded
UV lies in a corner triangle of the unit square
(`|u - 0.5| + |v - 0.5| > 0.5`) and decoding that UV yields a direction
with negative second component. -/
theorem oct_fold_symmetry (x y z : ℝ) (hy : y < 0) :
    |(encode x y z).1 - 0.5| + |(encode x y z).2 - 0.5| > 0.5 ∧
    (decode (encode x y z).1 (encode x y z).2).2.1 < 0 := by
  have h : ¬(x = 0 ∧ y = 0 ∧ z = 0) := fun ⟨_, hy0, _⟩ => hy.ne hy0
  constructor
  · obtain ⟨p, q, r, s, hs, hp, hr, hq, hsum, hiff, hpre⟩ := encode_decompose x y z h
    have hneg : r < 0 := hiff.mpr hy
    have hrabs : 0 < |r| := abs_pos.mpr hneg.ne
    have h1 : (encode x y z).1 = (encodePre x y z).1 * 0.5 + 0.5 := rfl
    have h2 : (encode x y z).2 = (encodePre x y z).2 * 0.5 + 0.5 := rfl
    rw [h1, h2, hpre]
    dsimp only
    rw [if_pos hneg, if_pos hneg]
    have e1 : (1 - |q|) * signDir p * 0.5 + 0.5 - 0.5 = (1 - |q|) * signDir p * 0.5 := by
      ring
    have e2 : (1 - |p|) * signDir q * 0.5 + 0.5 - 0.5 = (1 - |p|) * signDir q * 0.5 := by
      ring
    have a1 : |(1 - |q|) * signDir p * 0.5| = (1 - |q|) * 0.5 := by
      rw [abs_mul, abs_mul, abs_signDir, mul_one,
        abs_of_nonneg (by linarith [abs_nonneg p, abs_nonneg r] : (0:ℝ) ≤ 1 - |q|),
        abs_of_pos (by norm_num : (0:ℝ) < 0.5)]
    have a2 : |(1 - |p|) * signDir q * 0.5| = (1 - |p|) * 0.5 := by
      rw [abs_mul, abs_mul, abs_signDir, mul_one,
        abs_of_nonneg (by linarith [abs_nonneg q, abs_nonneg r] : (0:ℝ) ≤ 1 - |p|),
        abs_of_pos (by norm_num : (0:ℝ) < 0.5)]
    rw [e1, e2, a1, a2]
    nlinarith
  · rw [oct_round_trip x y z h]
    dsimp only
    exact div_neg_of_neg_of_pos hy (sqrt_norm_pos h)

/-- Witness for C3 at the concrete lower-hemisphere direction `(0, -1, 0)`. -/
theorem oct_fold_symmetry_witness :
    (-1:ℝ) < 0 ∧
    (|(encode 0 (-1) 0).1 - 0.5| + |(encode 0 (-1) 0).2 - 0.5| > 0.5 ∧
     (decode (encode 0 (-1) 0).1 (encode 0 (-1) 0).2).2.1 < 0) :=
  ⟨by norm_num, oct_fold_symmetry 0 (-1) 0 (by norm_num)⟩

/-- C9: for every non-zero input direction, the post-normalization L1 norm
computed by `encode` is at least 1, hence strictly above `1e-5`, so the
defensive `max(·, 1e-5)` clamp returns the L1 norm itself. -/
theorem oct_epsilon_floor_inactive (x y z : ℝ) (h : ¬(x = 0 ∧ y = 0 ∧ z = 0)) :
    1 ≤ encodeL1 x y z ∧ (1e-5 : ℝ) < encodeL1 x y z ∧
    max (encodeL1 x y z) 1e-5 = encodeL1 x y z := by
  have hunit := normalized_unit h
  have h1 : 1 ≤ encodeL1 x y z := by
    have h' := one_le_abs_add_of_unit hunit
    simp only [encodeL1]
    linarith
  exact ⟨h1, lt_of_lt_of_le (by norm_num) h1,
    max_eq_left (le_trans (by norm_num) h1)⟩

/-- Witness for C9 at the concrete direction `(0, 1, 0)`. -/
theorem oct_epsilon_floor_inactive_witness :
    ¬((0:ℝ) = 0 ∧ (1:ℝ) = 0 ∧ (0:ℝ) = 0) ∧
    (1 ≤ encodeL1 0 1 0 ∧ (1e-5 : ℝ) < encodeL1 0 1 0 ∧
     max (encodeL1 0 1 0) 1e-5 = encodeL1 0 1 0) := by
  have hne : ¬((0:ℝ) = 0 ∧ (1:ℝ) = 0 ∧ (0:ℝ) = 0) := by norm_num
  exact ⟨hne, oct_epsilon_floor_inactive 0 1 0 hne⟩

/-- C8: the per-axis sign factor used by the fold and unfold branches is
`+1` at exactly zero (`+1` for `c ≥ 0`, `-1` for `c < 0`); consequently a
fold-branch input whose first (resp. second) octahedral coordinate is zero
folds to a non-negative first (resp. second) pre-scaling component. -/
theorem oct_sign_tiebreak :
    (∀ c : ℝ, 0 ≤ c → signDir c = 1) ∧
    (∀ c : ℝ, c < 0 → signDir c = -1) ∧
    (∀ x y z : ℝ, y < 0 → x = 0 → 0 ≤ (encodePre x y z).1) ∧
    (∀ x y z : ℝ, y < 0 → z = 0 → 0 ≤ (encodePre x y z).2) := by
  refine ⟨fun c hc => signDir_of_nonneg hc, fun c hc => signDir_of_neg hc, ?_, ?_⟩
  · intro x y z hy hx
    have h : ¬(x = 0 ∧ y = 0 ∧ z = 0) := fun ⟨_, hy0, _⟩ => hy.ne hy0
    obtain ⟨p, q, r, s, hs, hp, hr, hq, hsum, hiff, hpre⟩ := encode_decompose x y z h
    have hneg : r < 0 := hiff.mpr hy
    have hp0 : p = 0 := by rw [hp, hx]; simp
    rw [hpre]
    dsimp only
    rw [if_pos hneg, hp0, signDir_of_nonneg le_rfl, mul_one]
    linarith [abs_nonneg p, abs_nonneg r]
  · intro x y z hy hz
    have h : ¬(x = 0 ∧ y = 0 ∧ z = 0) := fun ⟨_, hy0, _⟩ => hy.ne hy0
    obtain ⟨p, q, r, s, hs, hp, hr, hq, hsum, hiff, hpre⟩ := encode_decompose x y z h
    have hneg : r < 0 := hiff.mpr hy
    have hq0 : q = 0 := by rw [hq, hz]; simp
    rw [hpre]
    dsimp only
    rw [if_pos hneg, hq0, signDir_of_nonneg le_rfl, mul_one]
    linarith [abs_nonneg q, abs_nonneg r]

/-- Witness for C8: the sign factor at `0` and `-1`, and the fold-branch
consequence at the concrete direction `(0, -1, 0)`. -/
theorem oct_sign_tiebreak_witness :
    signDir 0 = 1 ∧ signDir (-1) = -1 ∧
    0 ≤ (encodePre 0 (-1) 0).1 ∧ 0 ≤ (encodePre 0 (-1) 0).2 :=
  ⟨oct_sign_tiebreak.1 0 le_rfl, oct_sign_tiebreak.2.1 (-1) (by norm_num),
   oct_sign_tiebreak.2.2.1 0 (-1) 0 (by norm_num) rfl,
   oct_sign_tiebreak.2.2.2 0 (-1) 0 (by norm_num) rfl⟩

/-- The triple returned by `decode` always has squared norm 1. -/
lemma decode_norm_sq_one (u v : ℝ) :
    (decode u v).1 * (decode u v).1 + (decode u v).2.1 * (decode u v).2.1 +
    (decode u v).2.2 * (decode u v).2.2 = 1 := by
  have hpos := triple_sum_sq_pos (decodePre_ne_zero u v)
  rw [decode_def]
  dsimp only
  set d1 := (decodePre u v).1
  set d2 := (decodePre u v).2.1
  set d3 := (decodePre u v).2.2
  have hsq : Real.sqrt (d1 * d1 + d2 * d2 + d3 * d3) *
      Real.sqrt (d1 * d1 + d2 * d2 + d3 * d3) = d1 * d1 + d2 * d2 + d3 * d3 :=
    Real.mul_self_sqrt hpos.le
  have hne : Real.sqrt (d1 * d1 + d2 * d2 + d3 * d3) ≠ 0 :=
    (Real.sqrt_pos.mpr hpos).ne'
  field_simp

/-- C4: for `(u, v)` strictly inside the unit square, the intermediate
triple `(n_x, n_z, n_y)` computed by `decode` before normalization is not
the zero vector, and the triple `decode` returns has Euclidean norm 1. -/
theorem oct_decode_well_defined (u v : ℝ) (hu0 : 0 < u) (hu1 : u < 1)
    (hv0 : 0 < v) (hv1 : v < 1) :
    decodePre u v ≠ (0, 0, 0) ∧
    Real.sqrt ((decode u v).1 * (decode u v).1 +
      (decode u v).2.1 * (decode u v).2.1 +
      (decode u v).2.2 * (decode u v).2.2) = 1 := by
  refine ⟨decodePre_ne_zero u v, ?_⟩
  rw [decode_norm_sq_one u v, Real.sqrt_one]

/-- Witness for C4 at the interior point `(1/2, 1/2)`. -/
theorem oct_decode_well_defined_witness :
    ((0:ℝ) < 1/2 ∧ (1/2:ℝ) < 1) ∧
    (decodePre (1/2) (1/2) ≠ (0, 0, 0) ∧
     Real.sqrt ((decode (1/2) (1/2)).1 * (decode (1/2) (1/2)).1 +
       (decode (1/2) (1/2)).2.1 * (decode (1/2) (1/2)).2.1 +
       (decode (1/2) (1/2)).2.2 * (decode (1/2) (1/2)).2.2) = 1) :=
  ⟨⟨by norm_num, by norm_num⟩,
   oct_decode_well_defined (1/2) (1/2) (by norm_num) (by norm_num)
     (by norm_num) (by norm_num)⟩

/-- C10: inside the unit square, a UV in the central diamond
(`|2u-1| + |2v-1| ≤ 1`) does not take the unfold branch and decodes to a
direction with non-negative polar component; the decoded polar component
is negative exactly when the UV lies strictly in a corner triangle. -/
theorem oct_decode_diamond_sign (u v : ℝ) (hu0 : 0 ≤ u) (hu1 : u ≤ 1)
    (hv0 : 0 ≤ v) (hv1 : v ≤ 1) :
    (|2 * u - 1| + |2 * v - 1| ≤ 1 →
      decodePre u v = (u * 2 - 1, 1 - |u * 2 - 1| - |v * 2 - 1|, v * 2 - 1) ∧
      0 ≤ (decode u v).2.1) ∧
    ((decode u v).2.1 < 0 ↔ 1 < |2 * u - 1| + |2 * v - 1|) := by
  have c1 : |2 * u - 1| = |u * 2 - 1| := by
    rw [show (2:ℝ) * u - 1 = u * 2 - 1 from by ring]
  have c2 : |2 * v - 1| = |v * 2 - 1| := by
    rw [show (2:ℝ) * v - 1 = v * 2 - 1 from by ring]
  have hQ := triple_sum_sq_pos (decodePre_ne_zero u v)
  set Q := (decodePre u v).1 * (decodePre u v).1 +
      (decodePre u v).2.1 * (decodePre u v).2.1 +
      (decodePre u v).2.2 * (decodePre u v).2.2 with hQdef
  have hsqrtQ : 0 < Real.sqrt Q := Real.sqrt_pos.mpr hQ
  have hsnd : (decode u v).2.1 = (decodePre u v).2.1 / Real.sqrt Q := by
    rw [decode_def]
  have hmid : (decodePre u v).2.1 = 1 - |u * 2 - 1| - |v * 2 - 1| := by
    rw [decodePre_raw]
  constructor
  · intro hd
    rw [c1, c2] at hd
    constructor
    · rw [decodePre_raw, if_neg (not_lt.mpr (by linarith)),
        if_neg (not_lt.mpr (by linarith))]
    · rw [hsnd, hmid]
      exact div_nonneg (by linarith) hsqrtQ.le
  · rw [hsnd, hmid, c1, c2]
    constructor
    · intro h'
      by_contra hge
      push_neg at hge
      exact absurd (div_nonneg (by linarith) hsqrtQ.le) (not_le.mpr h')
    · intro h'
      exact div_neg_of_neg_of_pos (by linarith) hsqrtQ

/-- Witness for C10 at the central point `(1/2, 1/2)`. -/
theorem oct_decode_diamond_sign_witness :
    ((0:ℝ) ≤ 1/2 ∧ (1/2:ℝ) ≤ 1) ∧
    ((|2 * (1/2:ℝ) - 1| + |2 * (1/2:ℝ) - 1| ≤ 1 →
      decodePre (1/2) (1/2) =
        ((1/2:ℝ) * 2 - 1, 1 - |(1/2:ℝ) * 2 - 1| - |(1/2:ℝ) * 2 - 1|,
         (1/2:ℝ) * 2 - 1) ∧
      0 ≤ (decode (1/2) (1/2)).2.1) ∧
    ((decode (1/2) (1/2)).2.1 < 0 ↔ 1 < |2 * (1/2:ℝ) - 1| + |2 * (1/2:ℝ) - 1|)) :=
  ⟨⟨by norm_num, by norm_num⟩,
   oct_decode_diamond_sign (1/2) (1/2) (by norm_num) (by norm_num)
     (by norm_num) (by norm_num)⟩

/-- C7: the `decode` of `oct_test.py` and the `decode` of
`simulate_octa.py` are extensionally equal functions. -/
theorem decode_copies_agree : ∀ u v : ℝ, decode u v = SimulateOcta.decode u v :=
  fun _ _ => rfl

/-- C5: `encode` applied to the zero vector is degenerate: the step-1
normalization divides by `sqrt(0) = 0`, so the checked model of `encode`
(mirroring Python float division, which fails on an exactly-zero divisor)
yields no value at `(0,0,0)`. -/
theorem oct_encode_zero_degenerate :
    Real.sqrt ((0:ℝ) * 0 + 0 * 0 + 0 * 0) = 0 ∧
    encodeChecked 0 0 0 = none := by
  constructor
  · simp
  · simp [encodeChecked]

/-- C6: the concrete fixtures hold exactly in real arithmetic:
`encode (0,1,0) = (0.5, 0.5)`, `decode (0.5, 0.5) = (0,1,0)`,
`encode (1,0,0) = (1.0, 0.5)`, `encode (0,0,1) = (0.5, 1.0)`, and
`decode (1.0, 0.5) = (1,0,0)`. -/
theorem oct_concrete_fixtures :
    encode 0 1 0 = (0.5, 0.5) ∧ decode 0.5 0.5 = (0, 1, 0) ∧
    encode 1 0 0 = (1.0, 0.5) ∧ encode 0 0 1 = (0.5, 1.0) ∧
    decode 1.0 0.5 = (1, 0, 0) := by
  have hmax : max (1:ℝ) 1e-5 = 1 := max_eq_left (by norm_num)
  refine ⟨?_, ?_, ?_, ?_, ?_⟩
  · simp only [encode, encodePre]
    norm_num [Real.sqrt_one, hmax]
  · have hpre : decodePre 0.5 0.5 = ((0:ℝ)/1, 1/1, 0/1) := by
      rw [decodePre_raw]
      norm_num
    exact decode_of_decodePre 0.5 0.5 0 1 0 1 one_pos (by norm_num) hpre
  · simp only [encode, encodePre]
    norm_num [Real.sqrt_one, hmax]
  · simp only [encode, encodePre]
    norm_num [Real.sqrt_one, hmax]
  · have hpre : decodePre 1.0 0.5 = ((1:ℝ)/1, 0/1, 0/1) := by
      rw [decodePre_raw]
      norm_num
    exact decode_of_decodePre 1.0 0.5 1 0 0 1 one_pos (by norm_num) hpre

end OctTest
